import Mathlib

/-!
# Verification of the Ambassador routing-resolution core

This development embeds the routing-resolution core of the Ambassador API
gateway (`ambassador/ir/irbasemapping.py`) in Lean 4 and proves properties
of its specification against the embedding.

The Python class `IRBaseMapping` carries the declared attributes of a
Mapping resource, a `setup` step computing the derived `group_id` and
`route_weight` fields via subclass-provided methods (the base class raises
`NotImplementedError`), and `match_tls_context`, a first-match scan of the
TLS contexts that sets `sni` on success.

Components of the core that are only specified (the canary weight
balancer, the route-weight order, and the grouping pass of the compiler)
are modelled from the specification text; each such definition carries a
doc comment saying so.
-/

/-- Declared attributes of a Mapping, as accepted by `IRBaseMapping.__init__`
(rkey, name, location, kind, apiVersion, precedence) together with the
routing attributes the spec lists for a Mapping (host, prefix path pattern,
optional canary weight). -/
structure MappingDecl where
  rkey : String
  name : String
  location : String
  kind : String
  apiVersion : String := "ambassador/v1"
  host : String := ""
  pathPrefix : String := ""
  precedence : Int := 0
  weight : Option Nat := none
deriving DecidableEq

/-- A Mapping: declared attributes plus the derived fields `group_id`,
`route_weight` and `sni` declared on `IRBaseMapping`. The derived fields
start out empty and are filled in by `setup` and `match_tls_context`. -/
structure Mapping where
  decl : MappingDecl
  group_id : String := ""
  route_weight : List (String ⊕ Int) := []
  sni : Bool := false
deriving DecidableEq

/-- A TLS context as consumed by `match_tls_context`: a name and an
optional list of SNI hosts (`context.get('hosts')` may be absent). -/
structure TLSContext where
  name : String
  hosts : Option (List String) := none
deriving DecidableEq

/-- `context.get('hosts') or []`: an absent or `None` hosts entry is
treated as the empty host list. -/
def contextHosts (c : TLSContext) : List String := c.hosts.getD []

/-- `IRBaseMapping.match_tls_context`: scan the TLS contexts in order and
return the first whose hosts contain an exact match for `host`, setting
`sni := true` on the mapping; with no match, return `none` and leave the
mapping untouched. The returned pair is (binding, updated mapping). -/
def match_tls_context (m : Mapping) (host : String) :
    List TLSContext → Option TLSContext × Mapping
  | [] => (none, m)
  | c :: rest =>
    if (contextHosts c).contains host then
      (some c, { m with sni := true })
    else
      match_tls_context m host rest

/-- The error raised when a Mapping kind misses a required capability
(`NotImplementedError` in the source). -/
inductive SetupError where
  | notImplemented (msg : String)
deriving DecidableEq

/-- A Mapping kind (the Python subclass of `IRBaseMapping`): its class
name and the optional overrides of `_group_id` and `_route_weight`. The
base class provides neither. -/
structure MappingKind where
  name : String
  groupIdImpl : Option (MappingDecl → String) := none
  routeWeightImpl : Option (MappingDecl → List (String ⊕ Int)) := none

/-- `IRBaseMapping._group_id`: dispatch to the kind override, or raise
`NotImplementedError` as the base class does. -/
def _group_id (k : MappingKind) (m : Mapping) : Except SetupError String :=
  match k.groupIdImpl with
  | some f => .ok (f m.decl)
  | none => .error (.notImplemented (k.name ++ "._group_id is not implemented?"))

/-- `IRBaseMapping._route_weight`: dispatch to the kind override, or raise
`NotImplementedError` as the base class does. -/
def _route_weight (k : MappingKind) (m : Mapping) :
    Except SetupError (List (String ⊕ Int)) :=
  match k.routeWeightImpl with
  | some f => .ok (f m.decl)
  | none => .error (.notImplemented (k.name ++ "._route_weight is not implemented?"))

/-- `IRBaseMapping.setup`: compute the group ID, then the route weight,
storing both on the mapping; an error in either derivation propagates. -/
def setup (k : MappingKind) (m : Mapping) : Except SetupError Mapping :=
  match _group_id k m with
  | .error e => .error e
  | .ok gid =>
    match _route_weight k m with
    | .error e => .error e
    | .ok rw => .ok { m with group_id := gid, route_weight := rw }

/-- Recognises the result of a derivation that failed with
`NotImplementedError`. -/
def isNotImplementedError (r : Except SetupError Mapping) : Bool :=
  match r with
  | .error (.notImplemented _) => true
  | _ => false

/-! ## CanaryWeightBalancer

Modelled from the spec: the canary weight balancer of the compiler is not
part of the visible source, so it is reconstructed from section 4.3 of the
specification. A group is given as the list of its members, already in
route-weight order; each member contributes its optional declared weight.
-/

/-- Modelled from the spec: declared weights are honored clamped to the
range 0 to 100. -/
def clamp (w : Nat) : Nat := min w 100

/-- The clamped declared weight of a member; an undeclared weight
contributes 0. -/
def declaredClamped (o : Option Nat) : Nat := clamp (o.getD 0)

/-- Modelled from the spec: split `total` evenly over `n` members, giving
the remainder of the division to the earliest members in route-weight
order. -/
def evenSplit (total n : Nat) : List Nat :=
  (List.range n).map (fun i => total / n + if i < total % n then 1 else 0)

/-- Modelled from the spec: fill a partially declared group. Declared
members keep their clamped weight; each undeclared member receives the
even share `q` of the remaining percentage, the first `r` undeclared
members receiving one unit more. -/
def fillGo (q r : Nat) : List (Option Nat) → List Nat
  | [] => []
  | some w :: rest => clamp w :: fillGo q r rest
  | none :: rest => (q + if 0 < r then 1 else 0) :: fillGo q (r - 1) rest

/-- Modelled from the spec: the initial proportional share of a member of
declared weight `w` in a group of total declared weight `s`, reserving a
minimum of 1 for any originally nonzero weight. -/
def initAlloc (s w : Nat) : Nat := if w = 0 then 0 else max 1 (w * 100 / s)

/-- Pairs (declared weight, current weight) carried by the rescaler. -/
def sumSnd (l : List (Nat × Nat)) : Nat := (l.map Prod.snd).sum

/-- The largest current weight of the rescaler state. -/
def maxSnd (l : List (Nat × Nat)) : Nat := (l.map Prod.snd).foldr max 0

/-- Modelled from the spec: hand one leftover percentage unit to each of
the earliest `k` members of nonzero declared weight. -/
def distLeftover : Nat → List (Nat × Nat) → List (Nat × Nat)
  | 0, l => l
  | _ + 1, [] => []
  | k + 1, (w, r) :: rest =>
    if w = 0 then (w, r) :: distLeftover (k + 1) rest
    else (w, r + 1) :: distLeftover k rest

/-- Decrement the first member whose current weight equals `m`. -/
def decFirstMax (m : Nat) : List (Nat × Nat) → List (Nat × Nat)
  | [] => []
  | (w, r) :: rest =>
    if r = m then (w, r - 1) :: rest else (w, r) :: decFirstMax m rest

/-- Modelled from the spec: trim the largest weight once per excess
percentage unit. -/
def trimLoop : Nat → List (Nat × Nat) → List (Nat × Nat)
  | 0, l => l
  | f + 1, l => trimLoop f (decFirstMax (maxSnd l) l)

/-- Modelled from the spec: rescale a fully weighted group proportionally
so the weights sum to exactly 100, reserving a minimum of 1 for any
originally nonzero weight; a shortfall of the rounded shares is given to
the earliest nonzero members, an excess is compensated by trimming the
largest weight. -/
def rescale (ws : List Nat) : List Nat :=
  let pairs := ws.map (fun w => (w, initAlloc ws.sum w))
  (if sumSnd pairs ≤ 100 then distLeftover (100 - sumSnd pairs) pairs
   else trimLoop (sumSnd pairs - 100) pairs).map Prod.snd

/-- Modelled from the spec: `balance(group)` of the CanaryWeightBalancer,
section 4.3. The members are given in route-weight order by their declared
weights; the result gives each member a normalized integer percentage
summing to 100, together with the misconfiguration-warning flag. With no
declared weight the traffic is split evenly; with partially declared
weights the declared weights are honored clamped to 0 to 100 and the rest
is split among the undeclared members (declared weights summing to 100 or
more leave the undeclared members at 0, raise the warning, and rescale any
overcommit); with all weights declared but summing away from 100 the
weights are rescaled proportionally (a group declaring only zeros falls
back to the even split). -/
def balance (ms : List (Option Nat)) : List Nat × Bool :=
  if ms.all (fun o => o.isNone) then
    (evenSplit 100 ms.length, false)
  else if ms.all (fun o => o.isSome) then
    if (ms.map declaredClamped).sum = 100 then (ms.map declaredClamped, false)
    else if (ms.map declaredClamped).sum = 0 then (evenSplit 100 ms.length, false)
    else (rescale (ms.map declaredClamped), decide (100 < (ms.map declaredClamped).sum))
  else
    if 100 ≤ (ms.map declaredClamped).sum then
      (if (ms.map declaredClamped).sum = 100 then ms.map declaredClamped
       else rescale (ms.map declaredClamped), true)
    else
      (fillGo ((100 - (ms.map declaredClamped).sum) / ms.countP (fun o => o.isNone))
              ((100 - (ms.map declaredClamped).sum) % ms.countP (fun o => o.isNone)) ms,
       false)

/-- Modelled from the spec: the balancer applied to a group of Mappings,
reading each member's declared canary weight. -/
def balanceGroup (g : List Mapping) : List Nat × Bool :=
  balance (g.map (fun m => m.decl.weight))

/-! ## RouteWeightCalculator order

Modelled from the spec: the route-weight order of section 4.2 is not part
of the visible source (`IRBaseMapping._route_weight` only raises), so it
is reconstructed from the specification: higher explicit precedence sorts
first, then longer (more specific) prefix paths, then the
lexicographically smaller `resourceKey`.
-/

/-- Modelled from the spec: `a` sorts strictly before `b` in route-weight
order. -/
def sortsBefore (a b : MappingDecl) : Prop :=
  b.precedence < a.precedence ∨
    (a.precedence = b.precedence ∧
      (b.pathPrefix.length < a.pathPrefix.length ∨
        (a.pathPrefix.length = b.pathPrefix.length ∧ a.rkey < b.rkey)))

instance (a b : MappingDecl) : Decidable (sortsBefore a b) := by
  unfold sortsBefore
  infer_instance

/-! ## GroupCompiler grouping

Modelled from the spec: the grouping pass of the GroupCompiler (section
4.5, step 2) is not part of the visible source; it partitions the input
Mappings by their computed `group_id`.
-/

/-- The distinct group IDs of the input, in order of first appearance. -/
def groupKeys (ms : List Mapping) : List String :=
  (ms.map (fun m => m.group_id)).dedup

/-- Modelled from the spec: partition the input Mappings into RouteGroups
by `group_id`, one group per distinct key. -/
def groupMappings (ms : List Mapping) : List (String × List Mapping) :=
  (groupKeys ms).map (fun k => (k, ms.filter (fun m => m.group_id == k)))

/-! ## Sample values used by concrete instances -/

/-- A sample declaration. -/
def d0 : MappingDecl :=
  { rkey := "r0", name := "m0", location := "loc0", kind := "Mapping" }

/-- A sample mapping, with `sni` still false. -/
def m0 : Mapping := { decl := d0 }

/-- A sample mapping with the same declaration as `m0` but a different
non-declared field. -/
def m0' : Mapping := { decl := d0, sni := true }

/-- A sample Mapping kind implementing both derivations. -/
def kHTTP : MappingKind :=
  { name := "IRHTTPMapping"
    groupIdImpl := some (fun d => d.kind ++ "-" ++ d.host ++ "-" ++ d.pathPrefix)
    routeWeightImpl :=
      some (fun d => [Sum.inr d.precedence, Sum.inl d.pathPrefix, Sum.inl d.rkey]) }

/-! ## TLS context binding (claims C1, C2, C10, C5) -/

/-- C1: `match_tls_context` returns the first context, in the given
order, whose hosts contain an exact match for the host; in particular
binding host x.com against contexts A and B both serving x.com yields A. -/
theorem tls_first_match :
    (∀ (m : Mapping) (host : String) (ctxs : List TLSContext),
      (match_tls_context m host ctxs).1
        = ctxs.find? (fun c => (contextHosts c).contains host)) ∧
    (match_tls_context m0 "x.com"
        [⟨"A", some ["x.com"]⟩, ⟨"B", some ["x.com"]⟩]).1
      = some ⟨"A", some ["x.com"]⟩ := by
  constructor
  · intro m host ctxs
    induction ctxs with
    | nil => rfl
    | cons c rest ih =>
      by_cases h : host ∈ contextHosts c
      · simp [match_tls_context, h, List.find?]
      · simp [match_tls_context, h, List.find?, ih]
  · rfl

/-- C2: when no TLS context lists the host, `match_tls_context` returns
an absent binding rather than an error and leaves the mapping — in
particular its `sni` flag — untouched. -/
theorem tls_no_match (m : Mapping) (host : String) (ctxs : List TLSContext)
    (h : ∀ c ∈ ctxs, (contextHosts c).contains host = false) :
    match_tls_context m host ctxs = (none, m) ∧
    (match_tls_context m host ctxs).2.sni = m.sni := by
  have key : match_tls_context m host ctxs = (none, m) := by
    induction ctxs with
    | nil => rfl
    | cons c rest ih =>
      have hc := h c (List.mem_cons_self c rest)
      simp only [match_tls_context, hc, Bool.false_eq_true, if_false]
      exact ih (fun c' hc' => h c' (List.mem_cons_of_mem c hc'))
  exact ⟨key, by rw [key]⟩

/-- Witness for C2 at a concrete host and context list. -/
theorem tls_no_match_witness :
    match_tls_context m0 "y.com" [⟨"A", some ["x.com"]⟩] = (none, m0) ∧
    (match_tls_context m0 "y.com" [⟨"A", some ["x.com"]⟩]).2.sni = m0.sni :=
  tls_no_match m0 "y.com" [⟨"A", some ["x.com"]⟩] (by decide)

/-- C10: a context whose hosts entry is absent is treated as having an
empty host set: it never matches and the scan simply proceeds to the
later contexts. -/
theorem tls_none_hosts_skipped (m : Mapping) (host : String) (c : TLSContext)
    (rest : List TLSContext) (h : c.hosts = none) :
    match_tls_context m host (c :: rest) = match_tls_context m host rest := by
  simp [match_tls_context, contextHosts, h]

/-- Witness for C10 at a concrete hosts-less context. -/
theorem tls_none_hosts_skipped_witness :
    match_tls_context m0 "x.com" [⟨"C", none⟩] = match_tls_context m0 "x.com" [] :=
  tls_none_hosts_skipped m0 "x.com" ⟨"C", none⟩ [] rfl

/-- C5 counterexample: `match_tls_context` does mutate the mapping after
setup — on a successful match it sets the `sni` field, so the mapping is
not read-only during TLS context matching. -/
theorem match_tls_context_mutates_sni :
    m0.sni = false ∧
    (match_tls_context m0 "x.com" [⟨"A", some ["x.com"]⟩]).2 ≠ m0 := by
  decide

/-- C5 amended: after setup, the only mutation any operation of this core
performs on a Mapping is `match_tls_context` setting `sni` to true on a
successful match; the declared attributes, `group_id` and `route_weight`
are left unchanged in every case. -/
theorem match_tls_context_frame (m : Mapping) (host : String)
    (ctxs : List TLSContext) :
    ((match_tls_context m host ctxs).2 = m ∨
      (match_tls_context m host ctxs).2 = { m with sni := true }) ∧
    (match_tls_context m host ctxs).2.decl = m.decl ∧
    (match_tls_context m host ctxs).2.group_id = m.group_id ∧
    (match_tls_context m host ctxs).2.route_weight = m.route_weight := by
  induction ctxs with
  | nil => simp [match_tls_context]
  | cons c rest ih =>
    by_cases h : host ∈ contextHosts c
    · simp [match_tls_context, h]
    · simpa [match_tls_context, h] using ih

/-! ## Derivation of group ID and route weight (claims C3, C4) -/

/-- C3: a Mapping kind that implements neither or only one of the two
derivations makes `setup` fail immediately with `NotImplementedError`;
no default value is produced. -/
theorem setup_missing_capability_fatal (k : MappingKind) (m : Mapping)
    (h : k.groupIdImpl = none ∨ k.routeWeightImpl = none) :
    isNotImplementedError (setup k m) = true := by
  rcases h with h | h
  · simp [setup, _group_id, h, isNotImplementedError, Except.bind]
  · cases hg : k.groupIdImpl with
    | none => simp [setup, _group_id, hg, isNotImplementedError, Except.bind]
    | some f =>
      simp [setup, _group_id, _route_weight, hg, h, isNotImplementedError,
        Except.bind]

/-- Witness for C3: the base Mapping kind, which implements neither
derivation. -/
theorem setup_missing_capability_fatal_witness :
    isNotImplementedError (setup { name := "IRBaseMapping" } m0) = true :=
  setup_missing_capability_fatal { name := "IRBaseMapping" } m0 (Or.inl rfl)

/-- C4: the derived `group_id` and `route_weight` computed by `setup` are
pure functions of the declared attributes — two Mappings of the same kind
with identical declared attributes produce identical derivations. -/
theorem setup_deterministic (k : MappingKind) (m1 m2 : Mapping)
    (h : m1.decl = m2.decl) :
    (setup k m1).map (fun r => (r.group_id, r.route_weight))
      = (setup k m2).map (fun r => (r.group_id, r.route_weight)) := by
  cases hg : k.groupIdImpl <;> cases hr : k.routeWeightImpl <;>
    simp [setup, _group_id, _route_weight, hg, hr, h, Except.map]

/-- Witness for C4 at a concrete kind and two mappings sharing their
declaration. -/
theorem setup_deterministic_witness :
    (setup kHTTP m0).map (fun r => (r.group_id, r.route_weight))
      = (setup kHTTP m0').map (fun r => (r.group_id, r.route_weight)) :=
  setup_deterministic kHTTP m0 m0' rfl

/-! ## Balancer lemmas -/

theorem range_map_sum_aux (n q r : Nat) :
    ((List.range n).map (fun i => q + if i < r then 1 else 0)).sum
      = n * q + min r n := by
  induction n with
  | zero => simp
  | succ n ih =>
    rw [List.range_succ, List.map_append, List.sum_append, ih, Nat.succ_mul]
    by_cases h : n < r <;> simp [h] <;> omega

theorem evenSplit_sum (total n : Nat) (h : 0 < n) :
    (evenSplit total n).sum = total := by
  have hm : total % n < n := Nat.mod_lt total h
  have hd : n * (total / n) + total % n = total := Nat.div_add_mod total n
  rw [evenSplit, range_map_sum_aux]
  omega

theorem evenSplit_length (total n : Nat) : (evenSplit total n).length = n := by
  simp [evenSplit]

theorem evenSplit_getD (total n i : Nat) (hi : i < n) :
    (evenSplit total n).getD i 0
      = total / n + if i < total % n then 1 else 0 := by
  simp [evenSplit, List.getD_eq_getElem?_getD, List.getElem?_map,
    List.getElem?_range hi]

theorem fillGo_length (q r : Nat) :
    ∀ ms : List (Option Nat), (fillGo q r ms).length = ms.length := by
  intro ms
  induction ms generalizing r with
  | nil => rfl
  | cons o rest ih => cases o <;> simp [fillGo, ih]

theorem fillGo_sum (q : Nat) :
    ∀ (ms : List (Option Nat)) (r : Nat),
      (fillGo q r ms).sum
        = (ms.map declaredClamped).sum + (ms.countP (fun o => o.isNone)) * q
            + min r (ms.countP (fun o => o.isNone)) := by
  intro ms
  induction ms with
  | nil => simp [fillGo]
  | cons o rest ih =>
    intro r
    cases o with
    | some w =>
      have : declaredClamped (some w) = clamp w := rfl
      simp [fillGo, ih r, List.countP_cons, this]
      omega
    | none =>
      have h1 := ih (r - 1)
      have h2 : declaredClamped none = 0 := rfl
      simp only [fillGo, List.sum_cons, h1, List.map_cons, h2,
        List.countP_cons]
      rcases Nat.eq_zero_or_pos r with h | h <;>
        simp [h, Nat.succ_mul] <;> omega

theorem fillGo_nonzero (q : Nat) :
    ∀ (ms : List (Option Nat)) (r : Nat),
      ∀ p ∈ ms.zip (fillGo q r ms), 0 < p.1.getD 0 → 0 < p.2 := by
  intro ms
  induction ms with
  | nil => intro r p hp; simp [fillGo] at hp
  | cons o rest ih =>
    intro r p hp
    cases o with
    | some w =>
      rcases List.mem_cons.mp hp with h | h
      · subst h
        intro hw
        simp only [Option.getD_some] at hw
        simpa [clamp] using hw
      · exact ih r p h
    | none =>
      rcases List.mem_cons.mp hp with h | h
      · subst h; intro hw; simp at hw
      · exact ih (r - 1) p h

/-- Every member of nonzero declared weight keeps a nonzero weight. -/
def GoodPairs (l : List (Nat × Nat)) : Prop := ∀ p ∈ l, 0 < p.1 → 0 < p.2

/-- A member of zero declared weight has weight zero. -/
def ZeroPairs (l : List (Nat × Nat)) : Prop := ∀ p ∈ l, p.1 = 0 → p.2 = 0

/-- Members of nonzero declared weight. -/
def cntPosFst (l : List (Nat × Nat)) : Nat := l.countP (fun p => decide (0 < p.1))

/-- Members of nonzero current weight. -/
def cntPosSnd (l : List (Nat × Nat)) : Nat := l.countP (fun p => decide (0 < p.2))

theorem sumSnd_nil : sumSnd [] = 0 := rfl

theorem sumSnd_cons (w r : Nat) (l : List (Nat × Nat)) :
    sumSnd ((w, r) :: l) = r + sumSnd l := by simp [sumSnd]

theorem maxSnd_nil : maxSnd [] = 0 := rfl

theorem maxSnd_cons (w r : Nat) (l : List (Nat × Nat)) :
    maxSnd ((w, r) :: l) = max r (maxSnd l) := by simp [maxSnd]

theorem distLeftover_map_fst :
    ∀ (k : Nat) (l : List (Nat × Nat)),
      (distLeftover k l).map Prod.fst = l.map Prod.fst := by
  intro k l
  induction l generalizing k with
  | nil => cases k <;> rfl
  | cons p rest ih =>
    obtain ⟨w, r⟩ := p
    cases k with
    | zero => rfl
    | succ k' =>
      by_cases hw : w = 0 <;> simp [distLeftover, hw, ih]

theorem distLeftover_sumSnd :
    ∀ (l : List (Nat × Nat)) (k : Nat), k ≤ cntPosFst l →
      sumSnd (distLeftover k l) = sumSnd l + k := by
  intro l
  induction l with
  | nil =>
    intro k hk
    have h0 : cntPosFst ([] : List (Nat × Nat)) = 0 := rfl
    rw [h0] at hk
    have : k = 0 := by omega
    subst this
    rfl
  | cons p rest ih =>
    intro k hk
    obtain ⟨w, r⟩ := p
    cases k with
    | zero => simp [distLeftover]
    | succ k' =>
      by_cases hw : w = 0
      · subst hw
        have hcnt : cntPosFst ((0, r) :: rest) = cntPosFst rest := by
          simp [cntPosFst, List.countP_cons]
        rw [hcnt] at hk
        have hstep : distLeftover (k' + 1) ((0, r) :: rest)
            = (0, r) :: distLeftover (k' + 1) rest := by
          simp [distLeftover]
        rw [hstep, sumSnd_cons, sumSnd_cons, ih (k' + 1) hk]
        omega
      · have hcnt : cntPosFst ((w, r) :: rest) = cntPosFst rest + 1 := by
          simp [cntPosFst, List.countP_cons, Nat.pos_of_ne_zero hw]
        rw [hcnt] at hk
        have hstep : distLeftover (k' + 1) ((w, r) :: rest)
            = (w, r + 1) :: distLeftover k' rest := by
          simp [distLeftover, hw]
        rw [hstep, sumSnd_cons, sumSnd_cons, ih k' (by omega)]
        omega

theorem distLeftover_good :
    ∀ (k : Nat) (l : List (Nat × Nat)), GoodPairs l →
      GoodPairs (distLeftover k l) := by
  intro k l
  induction l generalizing k with
  | nil => intro h; cases k <;> exact h
  | cons p rest ih =>
    intro h
    obtain ⟨w, r⟩ := p
    have hrest : GoodPairs rest := fun q hq => h q (List.mem_cons_of_mem _ hq)
    cases k with
    | zero => exact h
    | succ k' =>
      by_cases hw : w = 0
      · subst hw
        have hstep : distLeftover (k' + 1) ((0, r) :: rest)
            = (0, r) :: distLeftover (k' + 1) rest := by
          simp [distLeftover]
        rw [hstep]
        intro q hq
        rcases List.mem_cons.mp hq with hq | hq
        · subst hq; exact h (0, r) (List.mem_cons_self _ _)
        · exact ih (k' + 1) hrest q hq
      · have hstep : distLeftover (k' + 1) ((w, r) :: rest)
            = (w, r + 1) :: distLeftover k' rest := by
          simp [distLeftover, hw]
        rw [hstep]
        intro q hq
        rcases List.mem_cons.mp hq with hq | hq
        · subst hq; intro _; omega
        · exact ih k' hrest q hq

theorem distLeftover_zero :
    ∀ (k : Nat) (l : List (Nat × Nat)), ZeroPairs l →
      ZeroPairs (distLeftover k l) := by
  intro k l
  induction l generalizing k with
  | nil => intro h; cases k <;> exact h
  | cons p rest ih =>
    intro h
    obtain ⟨w, r⟩ := p
    have hrest : ZeroPairs rest := fun q hq => h q (List.mem_cons_of_mem _ hq)
    cases k with
    | zero => exact h
    | succ k' =>
      by_cases hw : w = 0
      · subst hw
        have hstep : distLeftover (k' + 1) ((0, r) :: rest)
            = (0, r) :: distLeftover (k' + 1) rest := by
          simp [distLeftover]
        rw [hstep]
        intro q hq
        rcases List.mem_cons.mp hq with hq | hq
        · subst hq; exact h (0, r) (List.mem_cons_self _ _)
        · exact ih (k' + 1) hrest q hq
      · have hstep : distLeftover (k' + 1) ((w, r) :: rest)
            = (w, r + 1) :: distLeftover k' rest := by
          simp [distLeftover, hw]
        rw [hstep]
        intro q hq
        rcases List.mem_cons.mp hq with hq | hq
        · subst hq; intro h0; exact absurd h0 hw
        · exact ih k' hrest q hq

theorem maxSnd_pos : ∀ l : List (Nat × Nat), 0 < sumSnd l → 0 < maxSnd l := by
  intro l
  induction l with
  | nil => intro h; exact absurd h (by simp [sumSnd])
  | cons p rest ih =>
    obtain ⟨w, r⟩ := p
    rw [sumSnd_cons, maxSnd_cons]
    intro h
    rcases Nat.eq_zero_or_pos r with hr | hr
    · have := ih (by omega)
      omega
    · omega

theorem maxSnd_le_sumSnd : ∀ l : List (Nat × Nat), maxSnd l ≤ sumSnd l := by
  intro l
  induction l with
  | nil => simp [sumSnd, maxSnd]
  | cons p rest ih =>
    obtain ⟨w, r⟩ := p
    rw [sumSnd_cons, maxSnd_cons]
    omega

theorem decFirstMax_map_fst :
    ∀ (m : Nat) (l : List (Nat × Nat)),
      (decFirstMax m l).map Prod.fst = l.map Prod.fst := by
  intro m l
  induction l with
  | nil => rfl
  | cons p rest ih =>
    obtain ⟨w, r⟩ := p
    by_cases hr : r = m <;> simp [decFirstMax, hr, ih]

theorem decFirstMax_sumSnd :
    ∀ l : List (Nat × Nat), 0 < sumSnd l →
      sumSnd (decFirstMax (maxSnd l) l) + 1 = sumSnd l := by
  intro l
  induction l with
  | nil => intro h; exact absurd h (by simp [sumSnd])
  | cons p rest ih =>
    intro hsum
    obtain ⟨w, r⟩ := p
    by_cases hr : r = maxSnd ((w, r) :: rest)
    · have hpos : 0 < maxSnd ((w, r) :: rest) := maxSnd_pos _ hsum
      have hstep : decFirstMax (maxSnd ((w, r) :: rest)) ((w, r) :: rest)
          = (w, r - 1) :: rest := by
        simp only [decFirstMax]
        rw [if_pos hr]
      rw [hstep, sumSnd_cons, sumSnd_cons]
      omega
    · have hmax : maxSnd ((w, r) :: rest) = maxSnd rest := by
        rw [maxSnd_cons] at hr ⊢
        rcases Nat.le_total r (maxSnd rest) with h | h
        · exact Nat.max_eq_right h
        · exact absurd (Nat.max_eq_left h).symm hr
      have hrestpos : 0 < sumSnd rest := by
        have h1 : 0 < maxSnd ((w, r) :: rest) := maxSnd_pos _ hsum
        have h2 := maxSnd_le_sumSnd rest
        omega
      have hstep : decFirstMax (maxSnd ((w, r) :: rest)) ((w, r) :: rest)
          = (w, r) :: decFirstMax (maxSnd ((w, r) :: rest)) rest := by
        simp [decFirstMax, hr]
      rw [hstep, hmax, sumSnd_cons, sumSnd_cons]
      have := ih hrestpos
      omega

theorem decFirstMax_preserve (m : Nat) (hm : 2 ≤ m) :
    ∀ l : List (Nat × Nat), GoodPairs l → ZeroPairs l →
      GoodPairs (decFirstMax m l) ∧ ZeroPairs (decFirstMax m l) := by
  intro l
  induction l with
  | nil => intro hg hz; exact ⟨hg, hz⟩
  | cons p rest ih =>
    intro hg hz
    obtain ⟨w, r⟩ := p
    have hgrest : GoodPairs rest := fun q hq => hg q (List.mem_cons_of_mem _ hq)
    have hzrest : ZeroPairs rest := fun q hq => hz q (List.mem_cons_of_mem _ hq)
    by_cases hr : r = m
    · have hstep : decFirstMax m ((w, r) :: rest) = (w, r - 1) :: rest := by
        simp [decFirstMax, hr]
      rw [hstep]
      constructor
      · intro q hq
        rcases List.mem_cons.mp hq with hq | hq
        · subst hq; intro _; omega
        · exact hgrest q hq
      · intro q hq
        rcases List.mem_cons.mp hq with hq | hq
        · subst hq
          intro h0
          have := hz (w, r) (List.mem_cons_self _ _) h0
          omega
        · exact hzrest q hq
    · have hstep : decFirstMax m ((w, r) :: rest)
          = (w, r) :: decFirstMax m rest := by
        simp [decFirstMax, hr]
      rw [hstep]
      obtain ⟨ihg, ihz⟩ := ih hgrest hzrest
      constructor
      · intro q hq
        rcases List.mem_cons.mp hq with hq | hq
        · subst hq; exact hg (w, r) (List.mem_cons_self _ _)
        · exact ihg q hq
      · intro q hq
        rcases List.mem_cons.mp hq with hq | hq
        · subst hq; exact hz (w, r) (List.mem_cons_self _ _)
        · exact ihz q hq

theorem sumSnd_le_max_mul_cnt :
    ∀ l : List (Nat × Nat), sumSnd l ≤ maxSnd l * cntPosSnd l := by
  intro l
  induction l with
  | nil => simp [sumSnd, maxSnd, cntPosSnd]
  | cons p rest ih =>
    obtain ⟨w, r⟩ := p
    have hmono : maxSnd rest * cntPosSnd rest
        ≤ maxSnd ((w, r) :: rest) * cntPosSnd rest := by
      apply Nat.mul_le_mul_right
      rw [maxSnd_cons]
      omega
    rcases Nat.eq_zero_or_pos r with hr | hr
    · have hcnt : cntPosSnd ((w, r) :: rest) = cntPosSnd rest := by
        simp [cntPosSnd, List.countP_cons, hr]
      rw [sumSnd_cons, hcnt, hr]
      calc 0 + sumSnd rest = sumSnd rest := by omega
        _ ≤ maxSnd rest * cntPosSnd rest := ih
        _ ≤ maxSnd ((w, 0) :: rest) * cntPosSnd rest := by
            simpa [hr] using hmono
    · have hcnt : cntPosSnd ((w, r) :: rest) = cntPosSnd rest + 1 := by
        simp [cntPosSnd, List.countP_cons, hr]
      rw [sumSnd_cons, hcnt, Nat.mul_succ]
      have h1 : r ≤ maxSnd ((w, r) :: rest) := by rw [maxSnd_cons]; omega
      have h2 : sumSnd rest ≤ maxSnd ((w, r) :: rest) * cntPosSnd rest :=
        le_trans ih hmono
      omega

theorem cntPosSnd_le_cntPosFst (l : List (Nat × Nat)) (hz : ZeroPairs l) :
    cntPosSnd l ≤ cntPosFst l := by
  apply List.countP_mono_left
  intro p hp h
  have h2 : 0 < p.2 := by simpa using h
  have := hz p hp
  simp only [decide_eq_true_eq]
  omega

theorem maxSnd_ge_two (l : List (Nat × Nat)) (hsum : 100 < sumSnd l)
    (hcnt : cntPosFst l ≤ 100) (hz : ZeroPairs l) : 2 ≤ maxSnd l := by
  by_contra hlt
  have hmax : maxSnd l ≤ 1 := by omega
  have h1 : sumSnd l ≤ maxSnd l * cntPosSnd l := sumSnd_le_max_mul_cnt l
  have h2 : maxSnd l * cntPosSnd l ≤ 1 * cntPosSnd l :=
    Nat.mul_le_mul_right _ hmax
  have h3 : cntPosSnd l ≤ cntPosFst l := cntPosSnd_le_cntPosFst l hz
  omega

theorem trimLoop_map_fst :
    ∀ (f : Nat) (l : List (Nat × Nat)),
      (trimLoop f l).map Prod.fst = l.map Prod.fst := by
  intro f
  induction f with
  | zero => intro l; rfl
  | succ f ih =>
    intro l
    rw [trimLoop, ih, decFirstMax_map_fst]

theorem trimLoop_sumSnd :
    ∀ (f : Nat) (l : List (Nat × Nat)), f ≤ sumSnd l →
      sumSnd (trimLoop f l) = sumSnd l - f := by
  intro f
  induction f with
  | zero => intro l _; simp [trimLoop]
  | succ f ih =>
    intro l hf
    have h0 : 0 < sumSnd l := by omega
    have hd := decFirstMax_sumSnd l h0
    rw [trimLoop, ih _ (by omega)]
    omega

theorem cntPosFst_eq_of_map_fst {l l' : List (Nat × Nat)}
    (h : l.map Prod.fst = l'.map Prod.fst) : cntPosFst l = cntPosFst l' := by
  have h1 : cntPosFst l
      = (l.map Prod.fst).countP (fun w => decide (0 < w)) := by
    rw [List.countP_map]; rfl
  have h2 : cntPosFst l'
      = (l'.map Prod.fst).countP (fun w => decide (0 < w)) := by
    rw [List.countP_map]; rfl
  rw [h1, h2, h]

theorem length_eq_of_map_fst {l l' : List (Nat × Nat)}
    (h : l.map Prod.fst = l'.map Prod.fst) : l.length = l'.length := by
  have := congrArg List.length h
  simpa using this

theorem trimLoop_preserve :
    ∀ (f : Nat) (l : List (Nat × Nat)), cntPosFst l ≤ 100 →
      sumSnd l = 100 + f → GoodPairs l → ZeroPairs l →
      GoodPairs (trimLoop f l) ∧ ZeroPairs (trimLoop f l) := by
  intro f
  induction f with
  | zero => intro l _ _ hg hz; exact ⟨hg, hz⟩
  | succ f ih =>
    intro l hcnt hsum hg hz
    have h2 : 2 ≤ maxSnd l := maxSnd_ge_two l (by omega) hcnt hz
    obtain ⟨hg', hz'⟩ := decFirstMax_preserve (maxSnd l) h2 l hg hz
    have hsum' : sumSnd (decFirstMax (maxSnd l) l) = 100 + f := by
      have := decFirstMax_sumSnd l (by omega)
      omega
    have hcnt' : cntPosFst (decFirstMax (maxSnd l) l) ≤ 100 := by
      rw [cntPosFst_eq_of_map_fst (decFirstMax_map_fst (maxSnd l) l)]
      exact hcnt
    rw [trimLoop]
    exact ih _ hcnt' hsum' hg' hz'

theorem initAlloc_bound (s w : Nat) (hs : 0 < s) (hw : 0 < w) :
    100 * w + 1 ≤ s * (initAlloc s w + 1) := by
  have h1 : w * 100 + 1 ≤ s * (w * 100 / s) + s := by
    have hd : s * (w * 100 / s) + w * 100 % s = w * 100 := Nat.div_add_mod (w * 100) s
    have hm : w * 100 % s < s := Nat.mod_lt _ hs
    omega
  have h2 : w * 100 / s ≤ initAlloc s w := by
    rw [initAlloc, if_neg (by omega)]
    exact le_max_right _ _
  have h3 : s * (w * 100 / s) + s ≤ s * (initAlloc s w) + s := by
    have := Nat.mul_le_mul_left s h2
    omega
  have e1 : s * (initAlloc s w + 1) = s * initAlloc s w + s := by ring
  have e2 : 100 * w = w * 100 := by ring
  omega

theorem alloc_lower (s : Nat) (hs : 0 < s) :
    ∀ ws : List Nat,
      100 * ws.sum + ws.countP (fun w => decide (0 < w))
        ≤ s * ((ws.map (fun w => initAlloc s w)).sum
            + ws.countP (fun w => decide (0 < w))) := by
  intro ws
  induction ws with
  | nil => simp
  | cons w rest ih =>
    rcases Nat.eq_zero_or_pos w with hw | hw
    · subst hw
      have hz : initAlloc s 0 = 0 := by rw [initAlloc, if_pos rfl]
      simpa [List.countP_cons, hz] using ih
    · have hE := initAlloc_bound s w hs hw
      have hcnt : (w :: rest).countP (fun w => decide (0 < w))
          = rest.countP (fun w => decide (0 < w)) + 1 := by
        simp [List.countP_cons, hw]
      rw [List.sum_cons, List.map_cons, List.sum_cons, hcnt]
      have e1 : 100 * (w + rest.sum) + (rest.countP (fun w => decide (0 < w)) + 1)
          = (100 * w + 1)
            + (100 * rest.sum + rest.countP (fun w => decide (0 < w))) := by
        ring
      have e2 : s * (initAlloc s w + (rest.map (fun w => initAlloc s w)).sum
            + (rest.countP (fun w => decide (0 < w)) + 1))
          = s * (initAlloc s w + 1)
            + s * ((rest.map (fun w => initAlloc s w)).sum
              + rest.countP (fun w => decide (0 < w))) := by
        ring
      rw [e1, e2]
      exact Nat.add_le_add hE ih

theorem countP_pos_of_sum_pos (ws : List Nat) (hs : 0 < ws.sum) :
    0 < ws.countP (fun w => decide (0 < w)) := by
  rcases Nat.eq_zero_or_pos (ws.countP (fun w => decide (0 < w))) with h0 | h0
  · exfalso
    rw [List.countP_eq_zero] at h0
    have hz : ws.sum = 0 := List.sum_eq_zero (fun x hx => by
      have := h0 x hx
      simp only [decide_eq_true_eq] at this
      omega)
    omega
  · exact h0

theorem alloc_deficit_bound (ws : List Nat) (hs : 0 < ws.sum) :
    100 < (ws.map (fun w => initAlloc ws.sum w)).sum
        + ws.countP (fun w => decide (0 < w)) := by
  set F := (ws.map (fun w => initAlloc ws.sum w)).sum with hF
  set C := ws.countP (fun w => decide (0 < w)) with hC
  have h := alloc_lower ws.sum hs ws
  rw [← hF, ← hC] at h
  have hc : 0 < C := countP_pos_of_sum_pos ws hs
  by_contra hno
  push_neg at hno
  have h2 : ws.sum * (F + C) ≤ ws.sum * 100 := Nat.mul_le_mul_left _ hno
  have h3 : ws.sum * 100 = 100 * ws.sum := by ring
  omega

theorem pairs_map_fst (ws : List Nat) (s : Nat) :
    (ws.map (fun w => (w, initAlloc s w))).map Prod.fst = ws := by
  induction ws with
  | nil => rfl
  | cons w rest ih => simp only [List.map_cons, ih]

theorem pairs_sumSnd (ws : List Nat) (s : Nat) :
    sumSnd (ws.map (fun w => (w, initAlloc s w)))
      = (ws.map (fun w => initAlloc s w)).sum := by
  rw [sumSnd, List.map_map]
  rfl

theorem pairs_cntPosFst (ws : List Nat) (s : Nat) :
    cntPosFst (ws.map (fun w => (w, initAlloc s w)))
      = ws.countP (fun w => decide (0 < w)) := by
  rw [cntPosFst, List.countP_map]
  rfl

theorem pairs_good (ws : List Nat) (s : Nat) :
    GoodPairs (ws.map (fun w => (w, initAlloc s w))) := by
  intro p hp
  obtain ⟨w, _, rfl⟩ := List.mem_map.mp hp
  intro hw
  simp only
  rw [initAlloc, if_neg (by omega)]
  omega

theorem pairs_zero (ws : List Nat) (s : Nat) :
    ZeroPairs (ws.map (fun w => (w, initAlloc s w))) := by
  intro p hp
  obtain ⟨w, _, rfl⟩ := List.mem_map.mp hp
  intro hw
  simp only at hw ⊢
  rw [hw, initAlloc, if_pos rfl]

theorem zip_fst_snd :
    ∀ l : List (Nat × Nat), (l.map Prod.fst).zip (l.map Prod.snd) = l := by
  intro l
  induction l with
  | nil => rfl
  | cons p rest ih => obtain ⟨w, r⟩ := p; simp [ih]

theorem rescale_sum (ws : List Nat) (hs : 0 < ws.sum) : (rescale ws).sum = 100 := by
  have hT := pairs_sumSnd ws ws.sum
  have hbound := alloc_deficit_bound ws hs
  have hcnt := pairs_cntPosFst ws ws.sum
  simp only [rescale]
  by_cases hc : sumSnd (ws.map (fun w => (w, initAlloc ws.sum w))) ≤ 100
  · rw [if_pos hc]
    show sumSnd (distLeftover
      (100 - sumSnd (ws.map (fun w => (w, initAlloc ws.sum w))))
      (ws.map (fun w => (w, initAlloc ws.sum w)))) = 100
    rw [distLeftover_sumSnd _ _ (by omega)]
    omega
  · rw [if_neg hc]
    show sumSnd (trimLoop
      (sumSnd (ws.map (fun w => (w, initAlloc ws.sum w))) - 100)
      (ws.map (fun w => (w, initAlloc ws.sum w)))) = 100
    rw [trimLoop_sumSnd _ _ (by omega)]
    omega

theorem rescale_length (ws : List Nat) : (rescale ws).length = ws.length := by
  have hlen : (ws.map (fun w => (w, initAlloc ws.sum w))).length = ws.length := by
    simp
  simp only [rescale]
  by_cases hc : sumSnd (ws.map (fun w => (w, initAlloc ws.sum w))) ≤ 100
  · rw [if_pos hc, List.length_map,
      length_eq_of_map_fst (distLeftover_map_fst _ _), hlen]
  · rw [if_neg hc, List.length_map,
      length_eq_of_map_fst (trimLoop_map_fst _ _), hlen]

theorem rescale_nonzero (ws : List Nat) (hs : 0 < ws.sum)
    (hcnt : ws.countP (fun w => decide (0 < w)) ≤ 100) :
    ∀ p ∈ ws.zip (rescale ws), 0 < p.1 → 0 < p.2 := by
  simp only [rescale]
  set pairs := ws.map (fun w => (w, initAlloc ws.sum w)) with hp
  set final := (if sumSnd pairs ≤ 100 then distLeftover (100 - sumSnd pairs) pairs
      else trimLoop (sumSnd pairs - 100) pairs) with hf
  have hfst : final.map Prod.fst = ws := by
    rw [hf]
    by_cases hc : sumSnd pairs ≤ 100
    · rw [if_pos hc, distLeftover_map_fst, hp, pairs_map_fst]
    · rw [if_neg hc, trimLoop_map_fst, hp, pairs_map_fst]
  have hgood : GoodPairs final := by
    rw [hf]
    by_cases hc : sumSnd pairs ≤ 100
    · rw [if_pos hc]
      exact distLeftover_good _ _ (by rw [hp]; exact pairs_good ws ws.sum)
    · rw [if_neg hc]
      have hz : ZeroPairs pairs := by rw [hp]; exact pairs_zero ws ws.sum
      have hg : GoodPairs pairs := by rw [hp]; exact pairs_good ws ws.sum
      have hc100 : cntPosFst pairs ≤ 100 := by
        rw [hp, pairs_cntPosFst]; exact hcnt
      exact (trimLoop_preserve (sumSnd pairs - 100) pairs hc100 (by omega) hg hz).1
  have hzip : ws.zip (final.map Prod.snd) = final := by
    conv_lhs => rw [← hfst]
    exact zip_fst_snd final
  intro p hp' h1
  rw [hzip] at hp'
  exact hgood p hp' h1

theorem countP_clamped (ms : List (Option Nat)) :
    (ms.map declaredClamped).countP (fun w => decide (0 < w))
      = ms.countP (fun o => decide (0 < o.getD 0)) := by
  induction ms with
  | nil => rfl
  | cons o rest ih =>
    have hpt : decide (0 < declaredClamped o) = decide (0 < o.getD 0) := by
      rcases Nat.eq_zero_or_pos (o.getD 0) with h | h <;>
        simp [declaredClamped, clamp, h] <;> omega
    simp only [List.map_cons, List.countP_cons, ih, hpt]

theorem zip_self_map (f : Option Nat → Nat) :
    ∀ l : List (Option Nat), ∀ p ∈ l.zip (l.map f), p.2 = f p.1 := by
  intro l
  induction l with
  | nil => intro p hp; simp at hp
  | cons o rest ih =>
    intro p hp
    simp only [List.map_cons, List.zip_cons_cons] at hp
    rcases List.mem_cons.mp hp with h | h
    · subst h; rfl
    · exact ih p h

/-! ## Canary balancing claims (C6, C7) -/

set_option maxRecDepth 4000 in
/-- C6 counterexample: with 101 members each declaring weight 1, weights
cannot sum to 100 while every nonzero-declared member keeps a nonzero
weight; the balancer keeps the exact sum and zeroes the first member. -/
theorem balance_nonzero_preservation_fails :
    (balance (List.replicate 101 (some 1))).1.sum = 100 ∧
    ¬ (∀ p ∈ (List.replicate 101 (some 1) : List (Option Nat)).zip
          (balance (List.replicate 101 (some 1))).1,
        0 < p.1.getD 0 → 0 < p.2) := by
  decide

/-- C6 amended: for every nonempty eligible group, after `balance` the
weights are integer percentages summing to exactly 100; and provided at
most 100 members declare a nonzero weight (beyond that the conjunction is
arithmetically impossible), every member of nonzero declared weight keeps
a nonzero weight. -/
theorem balance_normalizes (ms : List (Option Nat)) (h : ms ≠ []) :
    (balance ms).1.length = ms.length ∧ (balance ms).1.sum = 100 ∧
    (ms.countP (fun o => decide (0 < o.getD 0)) ≤ 100 →
      ∀ p ∈ ms.zip (balance ms).1, 0 < p.1.getD 0 → 0 < p.2) := by
  have hlen : 0 < ms.length := List.length_pos.mpr h
  unfold balance
  split_ifs with hA hB hC hD hE hF
  -- all members undeclared: even split
  · refine ⟨evenSplit_length 100 ms.length, evenSplit_sum 100 ms.length hlen, ?_⟩
    intro _ p hp hpos
    have hmem := (List.of_mem_zip hp).1
    have hnone := List.all_eq_true.mp hA p.1 hmem
    cases hh : p.1 with
    | none => rw [hh] at hpos; simp at hpos
    | some w => rw [hh] at hnone; simp at hnone
  -- all declared, summing to exactly 100
  · refine ⟨List.length_map _ _, hC, ?_⟩
    intro _ p hp hpos
    have hps := zip_self_map declaredClamped ms p hp
    rw [hps]
    simp only [declaredClamped, clamp]
    omega
  -- all declared, all zero: even split
  · refine ⟨evenSplit_length 100 ms.length, evenSplit_sum 100 ms.length hlen, ?_⟩
    intro _ p hp hpos
    exfalso
    have hmem := (List.of_mem_zip hp).1
    have hz := List.sum_eq_zero_iff.mp hD (declaredClamped p.1)
      (List.mem_map_of_mem declaredClamped hmem)
    simp only [declaredClamped, clamp] at hz
    omega
  -- all declared, rescaled
  · have hpos' : 0 < (ms.map declaredClamped).sum := by omega
    refine ⟨by rw [rescale_length, List.length_map],
      rescale_sum _ hpos', ?_⟩
    intro hcnt p hp hpos
    obtain ⟨a, b⟩ := p
    have hcnt' : (ms.map declaredClamped).countP (fun w => decide (0 < w)) ≤ 100 := by
      rw [countP_clamped]; exact hcnt
    have key := rescale_nonzero (ms.map declaredClamped) hpos' hcnt'
    have hmem : (declaredClamped a, b)
        ∈ (ms.map declaredClamped).zip (rescale (ms.map declaredClamped)) := by
      rw [List.zip_map_left]
      exact List.mem_map_of_mem (Prod.map declaredClamped id) hp
    apply key (declaredClamped a, b) hmem
    simp only [declaredClamped, clamp]
    simp only at hpos
    omega
  -- partially declared, declared weights sum to exactly 100
  · refine ⟨List.length_map _ _, hF, ?_⟩
    intro _ p hp hpos
    have hps := zip_self_map declaredClamped ms p hp
    rw [hps]
    simp only [declaredClamped, clamp]
    omega
  -- partially declared, overcommitted: rescaled
  · have hpos' : 0 < (ms.map declaredClamped).sum := by omega
    refine ⟨by rw [rescale_length, List.length_map],
      rescale_sum _ hpos', ?_⟩
    intro hcnt p hp hpos
    obtain ⟨a, b⟩ := p
    have hcnt' : (ms.map declaredClamped).countP (fun w => decide (0 < w)) ≤ 100 := by
      rw [countP_clamped]; exact hcnt
    have key := rescale_nonzero (ms.map declaredClamped) hpos' hcnt'
    have hmem : (declaredClamped a, b)
        ∈ (ms.map declaredClamped).zip (rescale (ms.map declaredClamped)) := by
      rw [List.zip_map_left]
      exact List.mem_map_of_mem (Prod.map declaredClamped id) hp
    apply key (declaredClamped a, b) hmem
    simp only [declaredClamped, clamp]
    simp only at hpos
    omega
  -- partially declared, undercommitted: fill the undeclared members
  · have hu : 0 < ms.countP (fun o => o.isNone) := by
      rw [List.countP_pos_iff]
      rw [List.all_eq_true] at hB
      push_neg at hB
      obtain ⟨o, ho, hno⟩ := hB
      refine ⟨o, ho, ?_⟩
      cases o with
      | none => rfl
      | some w => exact absurd rfl hno
    have hs : (ms.map declaredClamped).sum < 100 := by omega
    refine ⟨fillGo_length _ _ ms, ?_, ?_⟩
    · rw [fillGo_sum]
      have hmod : (100 - (ms.map declaredClamped).sum) % ms.countP (fun o => o.isNone)
          < ms.countP (fun o => o.isNone) := Nat.mod_lt _ hu
      have hdm := Nat.div_add_mod (100 - (ms.map declaredClamped).sum)
        (ms.countP (fun o => o.isNone))
      omega
    · intro _
      exact fillGo_nonzero _ ms _

/-- Witness for C6 at the concrete group with weights 70 and undeclared. -/
theorem balance_normalizes_witness :
    (balance [some 70, none]).1.sum = 100 ∧
    0 < ((some 70, 70) : Option Nat × Nat).2 :=
  ⟨(balance_normalizes [some 70, none] (by decide)).2.1,
   (balance_normalizes [some 70, none] (by decide)).2.2 (by decide)
     (some 70, 70) (by decide) (by decide)⟩

/-- C7: in a group in which no member declares an explicit weight,
`balance` splits traffic evenly, giving the remainder of dividing 100 by
the member count to the earliest members in route-weight order. -/
theorem balance_even_split (ms : List (Option Nat)) (h0 : ms ≠ [])
    (h1 : ∀ o ∈ ms, o = none) :
    (balance ms).1 = evenSplit 100 ms.length ∧
    ∀ i, i < ms.length →
      (balance ms).1.getD i 0
        = 100 / ms.length + if i < 100 % ms.length then 1 else 0 := by
  have hall : ms.all (fun o => o.isNone) = true := by
    rw [List.all_eq_true]
    intro o ho
    rw [h1 o ho]
    rfl
  have hbal : balance ms = (evenSplit 100 ms.length, false) := by
    unfold balance
    rw [if_pos hall]
  refine ⟨by rw [hbal], ?_⟩
  intro i hi
  rw [hbal]
  exact evenSplit_getD 100 ms.length i hi

/-- Witness for C7: three members with no explicit weights receive the
weights 34, 33 and 33. -/
theorem balance_even_split_witness :
    (balance [none, none, none]).1 = [34, 33, 33] :=
  ((balance_even_split [none, none, none] (by decide) (by decide)).1).trans
    (by decide)

/-! ## Route-weight order claim (C8) -/

/-- C8: the route-weight order is a deterministic total order: higher
explicit precedence sorts first, then longer (more specific) prefixes,
and two members of identical precedence and path specificity are ordered
with the lexicographically smaller resourceKey first, so members of
distinct resource keys are never tied. -/
theorem route_weight_total_order :
    (∀ a b : MappingDecl, a.rkey ≠ b.rkey →
      (sortsBefore a b ↔ ¬ sortsBefore b a)) ∧
    (∀ a b c : MappingDecl,
      sortsBefore a b → sortsBefore b c → sortsBefore a c) ∧
    (∀ a b : MappingDecl, b.precedence < a.precedence → sortsBefore a b) ∧
    (∀ a b : MappingDecl, a.precedence = b.precedence →
      b.pathPrefix.length < a.pathPrefix.length → sortsBefore a b) ∧
    (∀ a b : MappingDecl, a.precedence = b.precedence →
      a.pathPrefix.length = b.pathPrefix.length → a.rkey < b.rkey →
      sortsBefore a b) := by
  refine ⟨?_, ?_, ?_, ?_, ?_⟩
  · intro a b hne
    constructor
    · intro h hb
      rcases h with h | ⟨hp, h⟩ <;> rcases hb with hb | ⟨hpb, hb⟩
      · omega
      · omega
      · omega
      · rcases h with h | ⟨hl, h⟩ <;> rcases hb with hb | ⟨hlb, hb⟩
        · omega
        · omega
        · omega
        · exact absurd hb (lt_asymm h)
    · intro hnb
      rcases Int.lt_trichotomy b.precedence a.precedence with h | h | h
      · exact Or.inl h
      · rcases Nat.lt_trichotomy b.pathPrefix.length a.pathPrefix.length
          with hl | hl | hl
        · exact Or.inr ⟨h.symm, Or.inl hl⟩
        · rcases Ne.lt_or_lt hne with hk | hk
          · exact Or.inr ⟨h.symm, Or.inr ⟨hl.symm, hk⟩⟩
          · exact absurd (Or.inr ⟨h, Or.inr ⟨hl, hk⟩⟩) hnb
        · exact absurd (Or.inr ⟨h, Or.inl hl⟩) hnb
      · exact absurd (Or.inl h) hnb
  · intro a b c hab hbc
    rcases hab with hab | ⟨hpab, hab⟩ <;> rcases hbc with hbc | ⟨hpbc, hbc⟩
    · exact Or.inl (lt_trans hbc hab)
    · exact Or.inl (by omega)
    · exact Or.inl (by omega)
    · refine Or.inr ⟨by omega, ?_⟩
      rcases hab with hab | ⟨hlab, hab⟩ <;> rcases hbc with hbc | ⟨hlbc, hbc⟩
      · exact Or.inl (lt_trans hbc hab)
      · exact Or.inl (by omega)
      · exact Or.inl (by omega)
      · exact Or.inr ⟨by omega, lt_trans hab hbc⟩
  · intro a b h
    exact Or.inl h
  · intro a b hp hl
    exact Or.inr ⟨hp, Or.inl hl⟩
  · intro a b hp hl hk
    exact Or.inr ⟨hp, Or.inr ⟨hl, hk⟩⟩

/-- Witness for C8: two declarations of equal precedence and path
specificity sort by their resource keys. -/
theorem route_weight_total_order_witness :
    sortsBefore
      { rkey := "a", name := "m1", location := "l1", kind := "Mapping" }
      { rkey := "b", name := "m2", location := "l2", kind := "Mapping" } :=
  route_weight_total_order.2.2.2.2
    { rkey := "a", name := "m1", location := "l1", kind := "Mapping" }
    { rkey := "b", name := "m2", location := "l2", kind := "Mapping" }
    rfl rfl (by rw [String.lt_iff_toList_lt]; decide)

/-! ## Grouping claim (C9) -/

theorem flatten_filter_perm :
    ∀ (keys : List String) (ms : List Mapping), keys.Nodup →
      (∀ m ∈ ms, m.group_id ∈ keys) →
      ((keys.map (fun k => ms.filter (fun m => m.group_id == k))).flatten).Perm
        ms := by
  intro keys
  induction keys with
  | nil =>
    intro ms _ hcov
    have hnil : ms = [] := by
      cases ms with
      | nil => rfl
      | cons m rest =>
        exact absurd (hcov m (List.mem_cons_self _ _)) (List.not_mem_nil _)
    subst hnil
    simp
  | cons k ks ih =>
    intro ms hnd hcov
    have hknot : k ∉ ks := (List.nodup_cons.mp hnd).1
    have hnd' : ks.Nodup := (List.nodup_cons.mp hnd).2
    rw [List.map_cons, List.flatten_cons]
    set ms' := ms.filter (fun m => !(m.group_id == k)) with hms
    have hstep : ∀ k' ∈ ks, ms.filter (fun m => m.group_id == k')
        = ms'.filter (fun m => m.group_id == k') := by
      intro k' hk'
      rw [hms, List.filter_filter]
      apply List.filter_congr
      intro m _
      by_cases h : m.group_id = k'
      · have hne : ¬ (k' = k) := fun he => hknot (he ▸ hk')
        simp [h, hne]
      · simp [h]
    have hmap : ks.map (fun k' => ms.filter (fun m => m.group_id == k'))
        = ks.map (fun k' => ms'.filter (fun m => m.group_id == k')) :=
      List.map_congr_left hstep
    have hcov' : ∀ m ∈ ms', m.group_id ∈ ks := by
      intro m hm
      rw [hms] at hm
      have h1 := List.of_mem_filter hm
      have h2 := List.mem_of_mem_filter hm
      simp only [Bool.not_eq_true', beq_eq_false_iff_ne, ne_eq] at h1
      rcases List.mem_cons.mp (hcov m h2) with he | he
      · exact absurd he h1
      · exact he
    have hperm' := ih ms' hnd' hcov'
    rw [hmap]
    have c1 : (ms.filter (fun m => m.group_id == k)
          ++ (ks.map (fun k' => ms'.filter (fun m => m.group_id == k'))).flatten).Perm
        (ms.filter (fun m => m.group_id == k) ++ ms') :=
      hperm'.append_left _
    have c2 : (ms.filter (fun m => m.group_id == k) ++ ms').Perm ms := by
      rw [hms]
      exact List.filter_append_perm _ ms
    exact c1.trans c2

/-- C9: grouping partitions the input exactly: the members of all
RouteGroups taken together are a permutation of the input Mappings (no
Mapping duplicated or dropped), every member carries its group key, and
the group keys are pairwise distinct. -/
theorem grouping_partition (ms : List Mapping) :
    (((groupMappings ms).map Prod.snd).flatten).Perm ms ∧
    (∀ g ∈ groupMappings ms, ∀ m ∈ g.2, m.group_id = g.1) ∧
    ((groupMappings ms).map Prod.fst).Nodup := by
  refine ⟨?_, ?_, ?_⟩
  · have hmap : (groupMappings ms).map Prod.snd
        = (groupKeys ms).map (fun k => ms.filter (fun m => m.group_id == k)) := by
      rw [groupMappings, List.map_map]
      rfl
    rw [hmap]
    apply flatten_filter_perm
    · exact List.nodup_dedup _
    · intro m hm
      rw [groupKeys, List.mem_dedup]
      exact List.mem_map_of_mem _ hm
  · intro g hg m hm
    rw [groupMappings] at hg
    obtain ⟨k, _, rfl⟩ := List.mem_map.mp hg
    have := List.of_mem_filter hm
    simpa using this
  · have hfst : (groupMappings ms).map Prod.fst = groupKeys ms := by
      rw [groupMappings, List.map_map]
      have hc : (Prod.fst ∘ fun k => (k, ms.filter (fun m => m.group_id == k)))
          = id := funext fun k => rfl
      rw [hc, List.map_id]
    rw [hfst]
    exact List.nodup_dedup _

/-- A sample mapping in group g1. -/
def mg1 : Mapping := { decl := d0, group_id := "g1" }

/-- A second sample mapping in group g1. -/
def mg2 : Mapping := { decl := { d0 with rkey := "r1" }, group_id := "g1" }

/-- A sample mapping in group g2. -/
def mg3 : Mapping := { decl := { d0 with rkey := "r2" }, group_id := "g2" }

/-- Witness for C9 at a concrete input of three mappings in two groups. -/
theorem grouping_partition_witness :
    (((groupMappings [mg1, mg2, mg3]).map Prod.snd).flatten).Perm
      [mg1, mg2, mg3] ∧
    mg1.group_id = (("g1", [mg1, mg2]) : String × List Mapping).1 :=
  ⟨(grouping_partition [mg1, mg2, mg3]).1,
   (grouping_partition [mg1, mg2, mg3]).2.1 ("g1", [mg1, mg2]) (by decide)
     mg1 (by decide)⟩
